import Mathlib

/-!
Shallow embedding of `bilge-impl/src/bitsize/split.rs`: the attribute
classification engine that splits the attributes of a `#[bitsize]` item
into those applied before bitfield compression and those applied after,
aborting on invalid configurations.

Attributes (`syn::Attribute`) are modelled by their `Meta`, paths by their
segment lists, and the opaque token payload of a derive list by the outcome
of `syn`'s `parse_nested_meta` (either the parsed path list or a malformed
token blob).  An `abort!` / `abort_call_site!` is modelled as an
`Except.error` carrying the diagnostic kind, message and the rendered
location anchor.
-/

namespace Bilge

/-- Decidable equality for `Except`, so concrete runs of the engine can be
checked by `decide`. -/
instance {ε α : Type} [DecidableEq ε] [DecidableEq α] : DecidableEq (Except ε α) := fun x y =>
  match x, y with
  | .ok a, .ok b =>
    if h : a = b then .isTrue (by rw [h]) else .isFalse (by intro hh; cases hh; exact h rfl)
  | .error e, .error f =>
    if h : e = f then .isTrue (by rw [h]) else .isFalse (by intro hh; cases hh; exact h rfl)
  | .ok _, .error _ => .isFalse (by intro hh; cases hh)
  | .error _, .ok _ => .isFalse (by intro hh; cases hh)

/-- Substring test on character lists: does `pat` occur as a contiguous
infix of the second list?  Used to model Rust's `str::contains`. -/
def containsSub (pat : List Char) : List Char → Bool
  | [] => pat.isEmpty
  | c :: rest => List.isPrefixOf pat (c :: rest) || containsSub pat rest

/-- `str::contains`: `pat` occurs as a substring of `s`. -/
def strContains (s pat : String) : Bool := containsSub pat.data s.data

/-- `str::ends_with`. -/
def strEndsWith (s suffix : String) : Bool := List.isSuffixOf suffix.data s.data

/-- `syn::Path`, restricted to the mod-style paths that appear in attribute
positions: an optional leading `::` and a list of identifier segments. -/
structure Path where
  leadingColon : Bool
  segments : List String
deriving DecidableEq

/-- `ToTokens::to_token_stream().to_string()` for a path: segments joined by
`" :: "`, as `proc-macro2` renders them. -/
def Path.render (p : Path) : String :=
  let core := String.intercalate " :: " p.segments
  if p.leadingColon then ":: " ++ core else core

/-- `syn::Path::is_ident`: no leading colon and exactly one segment equal to
the given identifier. -/
def Path.isIdent (p : Path) (s : String) : Bool :=
  !p.leadingColon && p.segments == [s]

/-- Outcome of `syn`'s `parse_nested_meta` on the token payload of a
`Meta::List`: either the comma-separated paths it yields (in order), or a
malformed payload (the parse fails), carrying the rendered tokens. -/
inductive Payload where
  | paths (ps : List Path)
  | malformed (tokens : String)
deriving DecidableEq

/-- `syn::Meta`. -/
inductive Meta where
  | list (path : Path) (payload : Payload)
  | path (p : Path)
  | nameValue (p : Path) (value : String)
deriving DecidableEq

/-- Rendering of a payload back to token text. -/
def Payload.render : Payload → String
  | .paths ps => String.intercalate " , " (ps.map Path.render)
  | .malformed toks => toks

/-- `Meta::to_token_stream().to_string()`. -/
def Meta.render : Meta → String
  | .list p pl => p.render ++ " (" ++ pl.render ++ ")"
  | .path p => p.render
  | .nameValue p v => p.render ++ " = " ++ v

/-- `syn::Attribute`, reduced to its meta (the style and bracket tokens play
no role in `split.rs`). -/
structure Attribute where
  meta : Meta
deriving DecidableEq

/-- `contains_anywhere` from `split.rs`: the rendered token text of the meta
contains the given identifier as a substring. -/
def contains_anywhere (m : Meta) (ident : String) : Bool :=
  strContains m.render ident

/-- `struct Derive(Path)` from `split.rs`. -/
structure Derive where
  path : Path
deriving DecidableEq

/-- `impl ToString for Derive`. -/
def Derive.to_string (d : Derive) : String := d.path.render

/-- The path `derive` (single unqualified segment). -/
def derivePathIdent : Path := ⟨false, ["derive"]⟩

/-- `Derive::into_attribute`: a new `#[derive(path)]` attribute containing
only this derive. -/
def Derive.into_attribute (d : Derive) : Attribute :=
  ⟨.list derivePathIdent (.paths [d.path])⟩

/-- `Derive::is_bitfield_derive`: the final path segment ends with `"Bits"`.
(`syn` mod-style paths always have at least one segment, so the
`unwrap_or_else(unreachable)` default is never exercised.) -/
def Derive.is_bitfield_derive (d : Derive) : Bool :=
  strEndsWith (d.path.segments.getLastD "") "Bits"

/-- Diagnostic severity class: structural (malformed input shape) versus
policy (rule violation). -/
inductive AbortKind where
  | structural
  | policy
deriving DecidableEq

/-- A fatal diagnostic: `abort!` / `abort_call_site!` payload, with the
rendered tokens of the cited location. -/
structure Abort where
  kind : AbortKind
  msg : String
  loc : String
deriving DecidableEq

def callSiteMsg : String := "item is not a struct or enum"
def parseMsg : String := "failed to parse derive"
def debugMsg : String := "use derive(DebugBits) for structs"
def markerMsg : String := "remove bitsize_internal"
def companionMsg : String := "a bitfield struct with zerocopy::FromBytes also needs to have FromBits"

def callSiteAbort : Abort := ⟨.structural, callSiteMsg, ""⟩
def parseAbort (tokens : String) : Abort := ⟨.structural, parseMsg, tokens⟩
def debugAbort (p : Path) : Abort := ⟨.policy, debugMsg, p.render⟩
def markerAbort (a : Attribute) : Abort := ⟨.policy, markerMsg, a.meta.render⟩
def companionAbort (p : Path) : Abort := ⟨.policy, companionMsg, p.render⟩

/-- `enum ParsedAttribute` from `split.rs`. -/
inductive ParsedAttribute where
  | deriveList (ds : List Derive)
  | bitsizeInternal (a : Attribute)
  | other (a : Attribute)
deriving DecidableEq

/-- `parse_attribute` from `split.rs`.  The derive-list arm is tried first
(guarded by `list.path.is_ident("derive")`); a failing nested-meta parse
aborts; otherwise the `bitsize_internal` substring heuristic decides
between the internal-marker and opaque cases. -/
def parse_attribute (a : Attribute) : Except Abort ParsedAttribute :=
  match a.meta with
  | .list p payload =>
    if p.isIdent "derive" then
      match payload with
      | .paths ps => .ok (.deriveList (ps.map Derive.mk))
      | .malformed toks => .error (parseAbort toks)
    else if contains_anywhere (.list p payload) "bitsize_internal" then
      .ok (.bitsizeInternal a)
    else
      .ok (.other a)
  | .path p =>
    if contains_anywhere (.path p) "bitsize_internal" then
      .ok (.bitsizeInternal a)
    else
      .ok (.other a)
  | .nameValue p v =>
    if contains_anywhere (.nameValue p v) "bitsize_internal" then
      .ok (.bitsizeInternal a)
    else
      .ok (.other a)

/-- `SplitAttributes` from `split.rs`. -/
structure SplitAttributes where
  before_compression : List Attribute
  after_compression : List Attribute
deriving DecidableEq

/-- The mutable locals of the `split_item_attributes` loop. -/
structure LoopState where
  from_bytes : Option Derive
  has_frombits : Bool
  before_compression : List Attribute
  after_compression : List Attribute
deriving DecidableEq

def initState : LoopState := ⟨none, false, [], []⟩

/-- Does the derive render as the zero-copy-view name? (`"FromBytes"` or
`"zerocopy :: FromBytes"` match arms.) -/
def isFromBytesName (d : Derive) : Bool :=
  d.to_string == "FromBytes" || d.to_string == "zerocopy :: FromBytes"

/-- Does the derive render as the structural-from-representation name? -/
def isFromBitsName (d : Derive) : Bool :=
  d.to_string == "FromBits" || d.to_string == "bilge :: FromBits"

/-- Does the derive render as one of the four plain-debug spellings? -/
def isDebugName (d : Derive) : Bool :=
  d.to_string == "Debug" || d.to_string == "fmt :: Debug" ||
  d.to_string == "core :: fmt :: Debug" || d.to_string == "std :: fmt :: Debug"

/-- The `match derive.to_string().as_str()` statement inside the loop:
records `from_bytes` / `has_frombits`, aborts on a plain `Debug` derive on
a struct, and otherwise does nothing. -/
def deriveFlagStep (is_struct : Bool) (st : LoopState) (d : Derive) : Except Abort LoopState :=
  if isFromBytesName d then
    .ok { st with from_bytes := some d }
  else if isFromBitsName d then
    .ok { st with has_frombits := true }
  else if isDebugName d && is_struct then
    .error (debugAbort d.path)
  else
    .ok st

/-- The `if derive.is_bitfield_derive()` statement: push the singleton
derive attribute onto the matching bucket. -/
def pushDerive (st : LoopState) (d : Derive) : LoopState :=
  if d.is_bitfield_derive then
    { st with before_compression := st.before_compression ++ [d.into_attribute] }
  else
    { st with after_compression := st.after_compression ++ [d.into_attribute] }

/-- One iteration of the inner `for derive in derives` loop. -/
def processDerive (is_struct : Bool) (st : LoopState) (d : Derive) : Except Abort LoopState :=
  match deriveFlagStep is_struct st d with
  | .ok st' => .ok (pushDerive st' d)
  | .error e => .error e

/-- The inner `for derive in derives` loop. -/
def runDerives (is_struct : Bool) (st : LoopState) : List Derive → Except Abort LoopState
  | [] => .ok st
  | d :: ds =>
    match processDerive is_struct st d with
    | .ok st' => runDerives is_struct st' ds
    | .error e => .error e

/-- One iteration of the outer `for parsed_attr in parsed` loop, including
the (lazy) parse of the attribute that the iterator performs just before
the body runs. -/
def processAttr (is_struct : Bool) (st : LoopState) (a : Attribute) : Except Abort LoopState :=
  match parse_attribute a with
  | .error e => .error e
  | .ok (.deriveList ds) => runDerives is_struct st ds
  | .ok (.bitsizeInternal a') => .error (markerAbort a')
  | .ok (.other a') => .ok { st with after_compression := st.after_compression ++ [a'] }

/-- The outer loop over all item attributes. -/
def runAttrs (is_struct : Bool) (st : LoopState) : List Attribute → Except Abort LoopState
  | [] => .ok st
  | a :: rest =>
    match processAttr is_struct st a with
    | .ok st' => runAttrs is_struct st' rest
    | .error e => .error e

/-- The code after the loop that builds the result: for enums, append
`after_compression` onto `before_compression` and leave it empty. -/
def finalize (is_struct : Bool) (st : LoopState) : SplitAttributes :=
  if is_struct then
    ⟨st.before_compression, st.after_compression⟩
  else
    ⟨st.before_compression ++ st.after_compression, []⟩

/-- The `if let Some(from_bytes)` companion check after the loop, followed
by finalization. -/
def finishSplit (is_struct : Bool) (st : LoopState) : Except Abort SplitAttributes :=
  match st.from_bytes with
  | some fb =>
    if !st.has_frombits && is_struct then .error (companionAbort fb.path)
    else .ok (finalize is_struct st)
  | none => .ok (finalize is_struct st)

/-- `split_item_attributes` for a known attribute list and kind flag. -/
def splitAttrs (is_struct : Bool) (attrs : List Attribute) : Except Abort SplitAttributes :=
  match runAttrs is_struct initState attrs with
  | .ok st => finishSplit is_struct st
  | .error e => .error e

/-- `syn::Item`, reduced to the three cases `split_item_attributes`
distinguishes: an enum or struct carrying its attributes, or anything
else. -/
inductive Item where
  | enumItem (attrs : List Attribute)
  | structItem (attrs : List Attribute)
  | otherItem
deriving DecidableEq

/-- `split_item_attributes` from `split.rs`. -/
def split_item_attributes : Item → Except Abort SplitAttributes
  | .structItem attrs => splitAttrs true attrs
  | .enumItem attrs => splitAttrs false attrs
  | .otherItem => .error callSiteAbort

/-- Build a struct or enum item from a kind flag. -/
def itemOf (is_struct : Bool) (attrs : List Attribute) : Item :=
  if is_struct then .structItem attrs else .enumItem attrs

/-! Derived characterizations used to state the claims. -/

/-- The structural singletons a derive list contributes to
`before_compression`. -/
def bucketBefore (ds : List Derive) : List Attribute :=
  (ds.filter Derive.is_bitfield_derive).map Derive.into_attribute

/-- The ordinary singletons a derive list contributes to
`after_compression`. -/
def bucketAfter (ds : List Derive) : List Attribute :=
  (ds.filter (fun d => !d.is_bitfield_derive)).map Derive.into_attribute

/-- What one attribute contributes to `before_compression` on a struct. -/
def attrBefore (a : Attribute) : List Attribute :=
  match parse_attribute a with
  | .ok (.deriveList ds) => bucketBefore ds
  | _ => []

/-- What one attribute contributes to `after_compression` on a struct. -/
def attrAfter (a : Attribute) : List Attribute :=
  match parse_attribute a with
  | .ok (.deriveList ds) => bucketAfter ds
  | .ok (.other a') => [a']
  | _ => []

/-- Concatenated `before_compression` contributions, in source order. -/
def collectBefore : List Attribute → List Attribute
  | [] => []
  | a :: l => attrBefore a ++ collectBefore l

/-- Concatenated `after_compression` contributions, in source order. -/
def collectAfter : List Attribute → List Attribute
  | [] => []
  | a :: l => attrAfter a ++ collectAfter l

/-- The attribute is a derive list containing a zero-copy-view target. -/
def attrHasFromBytes (a : Attribute) : Bool :=
  match parse_attribute a with
  | .ok (.deriveList ds) => ds.any isFromBytesName
  | _ => false

/-- The attribute is a derive list containing a
structural-from-representation target. -/
def attrHasFromBits (a : Attribute) : Bool :=
  match parse_attribute a with
  | .ok (.deriveList ds) => ds.any isFromBitsName
  | _ => false

/-- The attribute is a derive list containing a plain-debug target. -/
def attrHasDebug (a : Attribute) : Bool :=
  match parse_attribute a with
  | .ok (.deriveList ds) => ds.any isDebugName
  | _ => false

/-- The attribute has path `derive`, list shape, and a payload that fails
to parse as a path list. -/
def isMalformedDerive (a : Attribute) : Bool :=
  match a.meta with
  | .list p (.malformed _) => p.isIdent "derive"
  | _ => false

/-- The meta is a list whose path is exactly `derive`. -/
def isDeriveShape : Meta → Bool
  | .list p _ => p.isIdent "derive"
  | _ => false

/-- The attribute parses and is not the internal marker (so the loop body
never aborts on its shape alone). -/
def attrWellFormed (a : Attribute) : Bool :=
  match parse_attribute a with
  | .ok (.bitsizeInternal _) => false
  | .ok _ => true
  | .error _ => false

/-- Well-formed and, on a struct, free of plain-debug targets: processing
this attribute can never abort. -/
def attrBenign (is_struct : Bool) (a : Attribute) : Bool :=
  attrWellFormed a && !(is_struct && attrHasDebug a)

/-! Concrete attributes used to exercise the engine on closed inputs. -/

/-- The spec's concrete scenario:
`#[derive(Clone, Copy, PartialEq, DebugBits, FromBits)]`. -/
def scenarioAttr : Attribute :=
  ⟨.list derivePathIdent (.paths
    [⟨false, ["Clone"]⟩, ⟨false, ["Copy"]⟩, ⟨false, ["PartialEq"]⟩,
     ⟨false, ["DebugBits"]⟩, ⟨false, ["FromBits"]⟩])⟩

/-- The struct output the spec expects for `scenarioAttr`. -/
def scenarioResult : SplitAttributes :=
  ⟨[⟨.list derivePathIdent (.paths [⟨false, ["DebugBits"]⟩])⟩,
    ⟨.list derivePathIdent (.paths [⟨false, ["FromBits"]⟩])⟩],
   [⟨.list derivePathIdent (.paths [⟨false, ["Clone"]⟩])⟩,
    ⟨.list derivePathIdent (.paths [⟨false, ["Copy"]⟩])⟩,
    ⟨.list derivePathIdent (.paths [⟨false, ["PartialEq"]⟩])⟩]⟩

/-- The enum output for `scenarioAttr`: both buckets concatenated. -/
def enumScenarioResult : SplitAttributes :=
  ⟨[⟨.list derivePathIdent (.paths [⟨false, ["DebugBits"]⟩])⟩,
    ⟨.list derivePathIdent (.paths [⟨false, ["FromBits"]⟩])⟩,
    ⟨.list derivePathIdent (.paths [⟨false, ["Clone"]⟩])⟩,
    ⟨.list derivePathIdent (.paths [⟨false, ["Copy"]⟩])⟩,
    ⟨.list derivePathIdent (.paths [⟨false, ["PartialEq"]⟩])⟩], []⟩

/-- `#[derive(FromBytes)]`. -/
def fromBytesAttr : Attribute := ⟨.list derivePathIdent (.paths [⟨false, ["FromBytes"]⟩])⟩

/-- `#[derive(Debug)]`. -/
def debugAttr : Attribute := ⟨.list derivePathIdent (.paths [⟨false, ["Debug"]⟩])⟩

/-- A hand-written internal-marker attribute: the bare path
`#[bitsize_internal]`. -/
def markerAttr : Attribute := ⟨.path ⟨false, ["bitsize_internal"]⟩⟩

/-- `#[derive(bitsize_internal)]`: a derive list naming `bitsize_internal`
as a target; its rendered text contains the marker substring. -/
def deriveMarkerAttr : Attribute :=
  ⟨.list derivePathIdent (.paths [⟨false, ["bitsize_internal"]⟩])⟩

/-- `#[derive()]`: a derive list with an empty payload. -/
def emptyDeriveAttr : Attribute := ⟨.list derivePathIdent (.paths [])⟩

/-- A `#[derive(...)]` whose payload fails to parse as a path list. -/
def malformedDeriveAttr : Attribute := ⟨.list derivePathIdent (.malformed "= garbage =")⟩

end Bilge

namespace Bilge

/-! Helper lemmas about the loop body. -/

lemma fromBytes_not_fromBits {d : Derive} (h : isFromBytesName d = true) :
    isFromBitsName d = false := by
  unfold isFromBytesName at h
  unfold isFromBitsName
  simp only [Bool.or_eq_true, beq_iff_eq] at h
  rcases h with h | h <;> rw [h] <;> decide

lemma debug_disjoint {d : Derive} (h : isDebugName d = true) :
    isFromBytesName d = false ∧ isFromBitsName d = false := by
  unfold isDebugName at h
  unfold isFromBytesName isFromBitsName
  simp only [Bool.or_eq_true, beq_iff_eq] at h
  rcases h with ((h | h) | h) | h <;> rw [h] <;> exact ⟨by decide, by decide⟩

lemma processDerive_ok {b : Bool} {st st' : LoopState} {d : Derive}
    (h : processDerive b st d = .ok st') :
    st'.before_compression
        = st.before_compression ++ (if d.is_bitfield_derive then [d.into_attribute] else []) ∧
    st'.after_compression
        = st.after_compression ++ (if d.is_bitfield_derive then [] else [d.into_attribute]) ∧
    st'.has_frombits = (st.has_frombits || isFromBitsName d) ∧
    st'.from_bytes.isSome = (st.from_bytes.isSome || isFromBytesName d) := by
  unfold processDerive deriveFlagStep at h
  by_cases h1 : isFromBytesName d
  · have h1' := fromBytes_not_fromBits h1
    simp only [h1, if_true] at h
    injection h with h
    subst h
    unfold pushDerive
    by_cases h2 : d.is_bitfield_derive <;> simp [h2, h1, h1']
  · by_cases h2 : isFromBitsName d
    · simp only [h1, h2, if_true, if_false, Bool.false_eq_true] at h
      injection h with h
      subst h
      unfold pushDerive
      by_cases h3 : d.is_bitfield_derive <;> simp [h3, h1, h2]
    · by_cases h3 : (isDebugName d && b) = true
      · simp [h1, h2, h3] at h
      · simp only [h1, h2, h3, if_true, if_false, Bool.false_eq_true] at h
        injection h with h
        subst h
        unfold pushDerive
        by_cases h4 : d.is_bitfield_derive <;> simp [h4, h1, h2]

lemma processDerive_error {b : Bool} {st : LoopState} {d : Derive} {e : Abort}
    (h : processDerive b st d = .error e) :
    b = true ∧ isDebugName d = true ∧ e = debugAbort d.path := by
  unfold processDerive deriveFlagStep at h
  by_cases h1 : isFromBytesName d
  · simp [h1] at h
  · by_cases h2 : isFromBitsName d
    · simp [h1, h2] at h
    · by_cases h3 : (isDebugName d && b) = true
      · simp only [h1, h2, h3, if_true, if_false, Bool.false_eq_true] at h
        injection h with h
        obtain ⟨hd, hb⟩ : isDebugName d = true ∧ b = true := by simpa using h3
        exact ⟨hb, hd, h.symm⟩
      · simp [h1, h2, h3] at h

lemma processDerive_isOk (b : Bool) (st : LoopState) (d : Derive)
    (h : (isDebugName d && b) = false) :
    ∃ st', processDerive b st d = .ok st' := by
  unfold processDerive deriveFlagStep
  by_cases h1 : isFromBytesName d
  · exact ⟨pushDerive { st with from_bytes := some d } d, by simp [h1]⟩
  · by_cases h2 : isFromBitsName d
    · exact ⟨pushDerive { st with has_frombits := true } d, by simp [h1, h2]⟩
    · exact ⟨pushDerive st d, by simp [h1, h2, h]⟩

lemma bucketBefore_cons (d : Derive) (ds : List Derive) :
    bucketBefore (d :: ds)
      = (if d.is_bitfield_derive then [d.into_attribute] else []) ++ bucketBefore ds := by
  unfold bucketBefore
  by_cases hd : d.is_bitfield_derive <;> simp [List.filter_cons, hd]

lemma bucketAfter_cons (d : Derive) (ds : List Derive) :
    bucketAfter (d :: ds)
      = (if d.is_bitfield_derive then [] else [d.into_attribute]) ++ bucketAfter ds := by
  unfold bucketAfter
  by_cases hd : d.is_bitfield_derive <;> simp [List.filter_cons, hd]

lemma runDerives_ok (b : Bool) (ds : List Derive) : ∀ (st st' : LoopState),
    runDerives b st ds = .ok st' →
    st'.before_compression = st.before_compression ++ bucketBefore ds ∧
    st'.after_compression = st.after_compression ++ bucketAfter ds ∧
    st'.has_frombits = (st.has_frombits || ds.any isFromBitsName) ∧
    st'.from_bytes.isSome = (st.from_bytes.isSome || ds.any isFromBytesName) := by
  induction ds with
  | nil =>
    intro st st' h
    simp only [runDerives] at h
    injection h with h
    subst h
    simp [bucketBefore, bucketAfter]
  | cons d ds ih =>
    intro st st' h
    simp only [runDerives] at h
    cases hp : processDerive b st d with
    | error e => simp [hp] at h
    | ok st1 =>
      simp only [hp] at h
      obtain ⟨hb, ha, hf, hfb⟩ := ih st1 st' h
      obtain ⟨pb, pa, pf, pfb⟩ := processDerive_ok hp
      refine ⟨?_, ?_, ?_, ?_⟩
      · rw [hb, pb, bucketBefore_cons, List.append_assoc]
      · rw [ha, pa, bucketAfter_cons, List.append_assoc]
      · rw [hf, pf, List.any_cons, Bool.or_assoc]
      · rw [hfb, pfb, List.any_cons, Bool.or_assoc]

lemma runDerives_isOk (b : Bool) (ds : List Derive) : ∀ st : LoopState,
    (∀ d ∈ ds, (isDebugName d && b) = false) →
    ∃ st', runDerives b st ds = .ok st' := by
  induction ds with
  | nil => intro st _; exact ⟨st, rfl⟩
  | cons d ds ih =>
    intro st h
    obtain ⟨st1, hst1⟩ := processDerive_isOk b st d (h d (by simp))
    obtain ⟨st', hst'⟩ := ih st1 (fun d' hd' => h d' (by simp [hd']))
    exact ⟨st', by simp only [runDerives, hst1]; exact hst'⟩

lemma runDerives_error (b : Bool) (ds : List Derive) : ∀ (st : LoopState) (e : Abort),
    runDerives b st ds = .error e →
    b = true ∧ ∃ d ∈ ds, isDebugName d = true ∧ e = debugAbort d.path := by
  induction ds with
  | nil => intro st e h; simp [runDerives] at h
  | cons d ds ih =>
    intro st e h
    simp only [runDerives] at h
    cases hp : processDerive b st d with
    | error e' =>
      simp only [hp] at h
      injection h with h
      subst h
      obtain ⟨hb, hd, he⟩ := processDerive_error hp
      exact ⟨hb, d, by simp, hd, he⟩
    | ok st1 =>
      simp only [hp] at h
      obtain ⟨hb, d', hmem, hd', he⟩ := ih st1 e h
      exact ⟨hb, d', by simp [hmem], hd', he⟩

lemma runDerives_debug (ds : List Derive) : ∀ st : LoopState,
    (∃ d ∈ ds, isDebugName d = true) →
    ∃ p, runDerives true st ds = .error (debugAbort p) := by
  induction ds with
  | nil => simp
  | cons d ds ih =>
    intro st h
    obtain ⟨d', hmem, hd'⟩ := h
    by_cases hd : isDebugName d
    · obtain ⟨hnb, hnf⟩ := debug_disjoint hd
      refine ⟨d.path, ?_⟩
      simp [runDerives, processDerive, deriveFlagStep, hnb, hnf, hd]
    · rcases List.mem_cons.mp hmem with h | h
      · subst h; exact absurd hd' (by simp [hd])
      · obtain ⟨st1, hst1⟩ := processDerive_isOk true st d (by simp [hd])
        obtain ⟨p, hp⟩ := ih st1 ⟨d', h, hd'⟩
        exact ⟨p, by simp only [runDerives, hst1]; exact hp⟩

lemma length_filter_partition {α : Type} (p : α → Bool) (l : List α) :
    (l.filter p).length + (l.filter (fun x => !p x)).length = l.length := by
  induction l with
  | nil => simp
  | cons a l ih => by_cases hp : p a <;> simp [List.filter_cons, hp, ← ih] <;> omega

end Bilge

namespace Bilge

/-! Helper lemmas about attribute recognition and the outer loop. -/

lemma parse_attribute_error {a : Attribute} {e : Abort} (h : parse_attribute a = .error e) :
    isMalformedDerive a = true ∧ e.kind = .structural ∧ e.msg = parseMsg := by
  obtain ⟨m⟩ := a
  cases m with
  | list p pl =>
    by_cases hid : p.isIdent "derive"
    · cases pl with
      | paths ps => simp [parse_attribute, hid] at h
      | malformed toks =>
        simp only [parse_attribute, hid, if_true] at h
        injection h with h
        subst h
        exact ⟨by simp [isMalformedDerive, hid], rfl, rfl⟩
    · by_cases hc : contains_anywhere (.list p pl) "bitsize_internal" <;>
        simp [parse_attribute, hid, hc] at h
  | path p =>
    by_cases hc : contains_anywhere (.path p) "bitsize_internal" <;>
      simp [parse_attribute, hc] at h
  | nameValue p v =>
    by_cases hc : contains_anywhere (.nameValue p v) "bitsize_internal" <;>
      simp [parse_attribute, hc] at h

lemma parse_attribute_marker {a : Attribute} (h1 : isDeriveShape a.meta = false)
    (h2 : contains_anywhere a.meta "bitsize_internal" = true) :
    parse_attribute a = .ok (.bitsizeInternal a) := by
  obtain ⟨m⟩ := a
  cases m with
  | list p pl =>
    have hid : p.isIdent "derive" = false := by simpa [isDeriveShape] using h1
    simp only [parse_attribute]
    rw [hid]
    simp only [Bool.false_eq_true, if_false]
    rw [if_pos]
    exact h2
  | path p =>
    simp only [parse_attribute]
    rw [if_pos]
    exact h2
  | nameValue p v =>
    simp only [parse_attribute]
    rw [if_pos]
    exact h2

lemma processAttr_ok {b : Bool} {st st' : LoopState} {a : Attribute}
    (h : processAttr b st a = .ok st') :
    st'.before_compression = st.before_compression ++ attrBefore a ∧
    st'.after_compression = st.after_compression ++ attrAfter a ∧
    st'.has_frombits = (st.has_frombits || attrHasFromBits a) ∧
    st'.from_bytes.isSome = (st.from_bytes.isSome || attrHasFromBytes a) := by
  unfold processAttr at h
  cases hp : parse_attribute a with
  | error e => simp [hp] at h
  | ok pa =>
    cases pa with
    | deriveList ds =>
      simp only [hp] at h
      have hr := runDerives_ok b ds st st' h
      simpa [attrBefore, attrAfter, attrHasFromBits, attrHasFromBytes, hp] using hr
    | bitsizeInternal a' => simp [hp] at h
    | other a' =>
      simp only [hp] at h
      injection h with h
      subst h
      simp [attrBefore, attrAfter, attrHasFromBits, attrHasFromBytes, hp]

lemma processAttr_error_class {b : Bool} {st : LoopState} {a : Attribute} {e : Abort}
    (h : processAttr b st a = .error e) :
    (isMalformedDerive a = true ∧ e.kind = .structural ∧ e.msg = parseMsg) ∨
    (e.kind = .policy ∧ e.msg = markerMsg) ∨
    (b = true ∧ e.kind = .policy ∧ e.msg = debugMsg) := by
  unfold processAttr at h
  cases hp : parse_attribute a with
  | error e' =>
    simp only [hp] at h
    injection h with h
    subst h
    exact .inl (parse_attribute_error hp)
  | ok pa =>
    cases pa with
    | deriveList ds =>
      simp only [hp] at h
      obtain ⟨hb, d, _, _, he⟩ := runDerives_error b ds st e h
      exact .inr (.inr ⟨hb, by rw [he]; exact rfl, by rw [he]; exact rfl⟩)
    | bitsizeInternal a' =>
      simp only [hp] at h
      injection h with h
      subst h
      exact .inr (.inl ⟨rfl, rfl⟩)
    | other a' => simp [hp] at h

lemma processAttr_isOk {b : Bool} {a : Attribute} (hben : attrBenign b a = true)
    (st : LoopState) : ∃ st', processAttr b st a = .ok st' := by
  cases hp : parse_attribute a with
  | error e => simp [attrBenign, attrWellFormed, hp] at hben
  | ok pa =>
    cases pa with
    | deriveList ds =>
      have hforall : ∀ d ∈ ds, (isDebugName d && b) = false := by
        intro d hd
        cases hb : b
        · simp
        · have hdbg : attrHasDebug a = false := by
            cases hdb : attrHasDebug a
            · rfl
            · rw [attrBenign, hb, hdb] at hben
              simp at hben
          have hany : ds.any isDebugName = false := by
            simpa [attrHasDebug, hp] using hdbg
          have hx : isDebugName d = false := by
            cases hxx : isDebugName d
            · rfl
            · have : ds.any isDebugName = true := List.any_eq_true.mpr ⟨d, hd, hxx⟩
              rw [this] at hany
              cases hany
          simp [hx]
      obtain ⟨st', hst'⟩ := runDerives_isOk b ds st hforall
      exact ⟨st', by simp only [processAttr, hp]; exact hst'⟩
    | bitsizeInternal a' => simp [attrBenign, attrWellFormed, hp] at hben
    | other a' =>
      exact ⟨{ st with after_compression := st.after_compression ++ [a'] },
        by simp only [processAttr, hp]⟩

lemma processAttr_malformed {a : Attribute} (hm : isMalformedDerive a = true)
    (b : Bool) (st : LoopState) : ∃ e, processAttr b st a = .error e := by
  obtain ⟨m⟩ := a
  cases m with
  | list p pl =>
    cases pl with
    | paths ps => simp [isMalformedDerive] at hm
    | malformed toks =>
      have hid : p.isIdent "derive" = true := by simpa [isMalformedDerive] using hm
      refine ⟨parseAbort toks, ?_⟩
      simp only [processAttr, parse_attribute, hid, if_true]
  | path p => simp [isMalformedDerive] at hm
  | nameValue p v => simp [isMalformedDerive] at hm

lemma processAttr_marker {a : Attribute} (h1 : isDeriveShape a.meta = false)
    (h2 : contains_anywhere a.meta "bitsize_internal" = true) (b : Bool) (st : LoopState) :
    processAttr b st a = .error (markerAbort a) := by
  simp only [processAttr, parse_attribute_marker h1 h2]

lemma attrHasDebug_parse {a : Attribute} (h : attrHasDebug a = true) :
    ∃ ds, parse_attribute a = .ok (.deriveList ds) ∧ ds.any isDebugName = true := by
  unfold attrHasDebug at h
  cases hp : parse_attribute a with
  | error e => rw [hp] at h; simp at h
  | ok pa =>
    cases pa with
    | deriveList ds => rw [hp] at h; exact ⟨ds, rfl, h⟩
    | bitsizeInternal a' => rw [hp] at h; simp at h
    | other a' => rw [hp] at h; simp at h

end Bilge

namespace Bilge

/-! Helper lemmas about the outer loop and the post-loop code. -/

lemma runAttrs_ok (b : Bool) (l : List Attribute) : ∀ (st st' : LoopState),
    runAttrs b st l = .ok st' →
    st'.before_compression = st.before_compression ++ collectBefore l ∧
    st'.after_compression = st.after_compression ++ collectAfter l ∧
    st'.has_frombits = (st.has_frombits || l.any attrHasFromBits) ∧
    st'.from_bytes.isSome = (st.from_bytes.isSome || l.any attrHasFromBytes) := by
  induction l with
  | nil =>
    intro st st' h
    simp only [runAttrs] at h
    injection h with h
    subst h
    simp [collectBefore, collectAfter]
  | cons a l ih =>
    intro st st' h
    simp only [runAttrs] at h
    cases hp : processAttr b st a with
    | error e => simp [hp] at h
    | ok st1 =>
      simp only [hp] at h
      obtain ⟨hb, ha, hf, hfb⟩ := ih st1 st' h
      obtain ⟨pb, pa, pf, pfb⟩ := processAttr_ok hp
      refine ⟨?_, ?_, ?_, ?_⟩
      · rw [hb, pb, collectBefore, List.append_assoc]
      · rw [ha, pa, collectAfter, List.append_assoc]
      · rw [hf, pf, List.any_cons, Bool.or_assoc]
      · rw [hfb, pfb, List.any_cons, Bool.or_assoc]

lemma runAttrs_isOk (b : Bool) (l : List Attribute) : ∀ st : LoopState,
    (∀ a ∈ l, attrBenign b a = true) →
    ∃ st', runAttrs b st l = .ok st' := by
  induction l with
  | nil => intro st _; exact ⟨st, rfl⟩
  | cons a l ih =>
    intro st h
    obtain ⟨st1, hst1⟩ := processAttr_isOk (h a (by simp)) st
    obtain ⟨st', hst'⟩ := ih st1 (fun a' ha' => h a' (by simp [ha']))
    exact ⟨st', by simp only [runAttrs, hst1]; exact hst'⟩

lemma runAttrs_error_class (b : Bool) (l : List Attribute) : ∀ (st : LoopState) (e : Abort),
    runAttrs b st l = .error e →
    ((∃ a ∈ l, isMalformedDerive a = true) ∧ e.kind = .structural ∧ e.msg = parseMsg) ∨
    (e.kind = .policy ∧ e.msg = markerMsg) ∨
    (b = true ∧ e.kind = .policy ∧ e.msg = debugMsg) := by
  induction l with
  | nil => intro st e h; simp [runAttrs] at h
  | cons a l ih =>
    intro st e h
    simp only [runAttrs] at h
    cases hp : processAttr b st a with
    | error e' =>
      simp only [hp] at h
      injection h with h
      subst h
      rcases processAttr_error_class hp with ⟨hm, hk, hmsg⟩ | hr | hr
      · exact .inl ⟨⟨a, by simp, hm⟩, hk, hmsg⟩
      · exact .inr (.inl hr)
      · exact .inr (.inr hr)
    | ok st1 =>
      simp only [hp] at h
      rcases ih st1 e h with ⟨⟨a', hmem, hm⟩, hk, hmsg⟩ | hr | hr
      · exact .inl ⟨⟨a', by simp [hmem], hm⟩, hk, hmsg⟩
      · exact .inr (.inl hr)
      · exact .inr (.inr hr)

lemma runAttrs_not_ok (b : Bool) (l : List Attribute) : ∀ st : LoopState,
    (∃ a ∈ l, ∀ st0 : LoopState, ∃ e0, processAttr b st0 a = .error e0) →
    ∃ e, runAttrs b st l = .error e := by
  induction l with
  | nil => simp
  | cons a l ih =>
    intro st h
    obtain ⟨a', hmem, hbad⟩ := h
    cases hp : processAttr b st a with
    | error e => exact ⟨e, by simp only [runAttrs, hp]⟩
    | ok st1 =>
      rcases List.mem_cons.mp hmem with heq | hmem'
      · subst heq
        obtain ⟨e0, he0⟩ := hbad st
        rw [hp] at he0
        cases he0
      · obtain ⟨e, he⟩ := ih st1 ⟨a', hmem', hbad⟩
        exact ⟨e, by simp only [runAttrs, hp]; exact he⟩

lemma runAttrs_first_marker (b : Bool) (xs : List Attribute) :
    ∀ (st : LoopState) (ys : List Attribute) (m : Attribute),
    (∀ x ∈ xs, attrBenign b x = true) →
    isDeriveShape m.meta = false →
    contains_anywhere m.meta "bitsize_internal" = true →
    runAttrs b st (xs ++ m :: ys) = .error (markerAbort m) := by
  induction xs with
  | nil =>
    intro st ys m _ h1 h2
    simp only [List.nil_append, runAttrs, processAttr_marker h1 h2]
  | cons x xs ih =>
    intro st ys m hben h1 h2
    obtain ⟨st1, hst1⟩ := processAttr_isOk (hben x (by simp)) st
    have := ih st1 ys m (fun x' hx' => hben x' (by simp [hx'])) h1 h2
    simp only [List.cons_append, runAttrs, hst1]
    exact this

lemma runAttrs_marker_policy (b : Bool) (xs : List Attribute) :
    ∀ (st : LoopState) (ys : List Attribute) (m : Attribute),
    isDeriveShape m.meta = false →
    contains_anywhere m.meta "bitsize_internal" = true →
    ∃ e, runAttrs b st (xs ++ m :: ys) = .error e ∧
      ((∀ x ∈ xs, isMalformedDerive x = false) → e.kind = .policy) := by
  induction xs with
  | nil =>
    intro st ys m h1 h2
    exact ⟨markerAbort m, by simp only [List.nil_append, runAttrs, processAttr_marker h1 h2],
      fun _ => rfl⟩
  | cons x xs ih =>
    intro st ys m h1 h2
    cases hx : processAttr b st x with
    | error e' =>
      refine ⟨e', by simp only [List.cons_append, runAttrs, hx], ?_⟩
      intro hnm
      rcases processAttr_error_class hx with ⟨hmal, _, _⟩ | ⟨hk, _⟩ | ⟨_, hk, _⟩
      · rw [hnm x (by simp)] at hmal
        cases hmal
      · exact hk
      · exact hk
    | ok st1 =>
      obtain ⟨e, he, hpol⟩ := ih st1 ys m h1 h2
      refine ⟨e, ?_, fun hnm => hpol (fun x' hx' => hnm x' (by simp [hx']))⟩
      simp only [List.cons_append, runAttrs, hx]
      exact he

lemma runAttrs_debug (l : List Attribute) : ∀ st : LoopState,
    (∀ a ∈ l, attrWellFormed a = true) → l.any attrHasDebug = true →
    ∃ p, runAttrs true st l = .error (debugAbort p) := by
  induction l with
  | nil => simp
  | cons a l ih =>
    intro st hwf hany
    cases hd : attrHasDebug a with
    | true =>
      obtain ⟨ds, hp, hds⟩ := attrHasDebug_parse hd
      obtain ⟨d, hmem, hdd⟩ := List.any_eq_true.mp hds
      obtain ⟨p, hrun⟩ := runDerives_debug ds st ⟨d, hmem, hdd⟩
      refine ⟨p, ?_⟩
      simp only [runAttrs, processAttr, hp]
      rw [hrun]
    | false =>
      have hben : attrBenign true a = true := by
        rw [attrBenign, hwf a (by simp), hd]
        rfl
      obtain ⟨st1, hst1⟩ := processAttr_isOk hben st
      have hany' : l.any attrHasDebug = true := by
        rcases List.any_eq_true.mp hany with ⟨a', hmem, ha'⟩
        rcases List.mem_cons.mp hmem with heq | hmem'
        · subst heq; rw [hd] at ha'; cases ha'
        · exact List.any_eq_true.mpr ⟨a', hmem', ha'⟩
      obtain ⟨p, hrun⟩ := ih st1 (fun a' ha' => hwf a' (by simp [ha'])) hany'
      exact ⟨p, by simp only [runAttrs, hst1]; exact hrun⟩

lemma runAttrs_first_debug (xs : List Attribute) :
    ∀ (st : LoopState) (ys : List Attribute) (a : Attribute),
    (∀ x ∈ xs, attrBenign true x = true) → attrHasDebug a = true →
    ∃ p, runAttrs true st (xs ++ a :: ys) = .error (debugAbort p) := by
  induction xs with
  | nil =>
    intro st ys a _ hd
    obtain ⟨ds, hp, hds⟩ := attrHasDebug_parse hd
    obtain ⟨d, hmem, hdd⟩ := List.any_eq_true.mp hds
    obtain ⟨p, hrun⟩ := runDerives_debug ds st ⟨d, hmem, hdd⟩
    refine ⟨p, ?_⟩
    simp only [List.nil_append, runAttrs, processAttr, hp]
    rw [hrun]
  | cons x xs ih =>
    intro st ys a hben hd
    obtain ⟨st1, hst1⟩ := processAttr_isOk (hben x (by simp)) st
    obtain ⟨p, hrun⟩ := ih st1 ys a (fun x' hx' => hben x' (by simp [hx'])) hd
    exact ⟨p, by simp only [List.cons_append, runAttrs, hst1]; exact hrun⟩

lemma finishSplit_ok {b : Bool} {st : LoopState} {r : SplitAttributes}
    (h : finishSplit b st = .ok r) : r = finalize b st := by
  unfold finishSplit at h
  cases hfb : st.from_bytes with
  | none =>
    rw [hfb] at h
    injection h with h
    exact h.symm
  | some fb =>
    rw [hfb] at h
    by_cases hc : (!st.has_frombits && b) = true
    · simp [hc] at h
    · simp only [hc, Bool.false_eq_true, if_false] at h
      injection h with h
      exact h.symm

lemma finishSplit_error {b : Bool} {st : LoopState} {e : Abort}
    (h : finishSplit b st = .error e) :
    e.kind = .policy ∧ e.msg = companionMsg ∧ b = true ∧ st.has_frombits = false := by
  unfold finishSplit at h
  cases hfb : st.from_bytes with
  | none => rw [hfb] at h; cases h
  | some fb =>
    rw [hfb] at h
    by_cases hc : (!st.has_frombits && b) = true
    · simp only [hc, if_true] at h
      injection h with h
      subst h
      obtain ⟨hnf, hb⟩ : (!st.has_frombits) = true ∧ b = true := by simpa using hc
      exact ⟨rfl, rfl, hb, by simpa using hnf⟩
    · simp [hc] at h

lemma finishSplit_false_ok (st : LoopState) : finishSplit false st = .ok (finalize false st) := by
  unfold finishSplit
  cases st.from_bytes <;> simp

lemma split_itemOf (b : Bool) (attrs : List Attribute) :
    split_item_attributes (itemOf b attrs) = splitAttrs b attrs := by
  cases b <;> rfl

lemma splitAttrs_of_error {b : Bool} {l : List Attribute} {e : Abort}
    (h : runAttrs b initState l = .error e) : splitAttrs b l = .error e := by
  simp only [splitAttrs, h]

end Bilge

namespace Bilge

lemma benign_of_noDebug {attrs : List Attribute}
    (hw : ∀ a ∈ attrs, attrWellFormed a = true)
    (hd : attrs.any attrHasDebug = false) :
    ∀ a ∈ attrs, attrBenign true a = true := by
  intro a ha
  have hda : attrHasDebug a = false := by
    cases hx : attrHasDebug a
    · rfl
    · have : attrs.any attrHasDebug = true := List.any_eq_true.mpr ⟨a, ha, hx⟩
      rw [this] at hd
      cases hd
  rw [attrBenign, hw a ha, hda]
  rfl

lemma runAttrs_insert_empty (b : Bool) (xs : List Attribute) :
    ∀ (st : LoopState) (ys : List Attribute),
    runAttrs b st (xs ++ emptyDeriveAttr :: ys) = runAttrs b st (xs ++ ys) := by
  induction xs with
  | nil =>
    intro st ys
    have hed : processAttr b st emptyDeriveAttr = .ok st := rfl
    simp only [List.nil_append, runAttrs, hed]
  | cons x xs ih =>
    intro st ys
    simp only [List.cons_append, runAttrs]
    cases hx : processAttr b st x with
    | error e => simp [hx]
    | ok st1 => simp only [hx]; exact ih st1 ys

end Bilge

namespace Bilge

/-- Claim C1: for every struct (`Record`) item that classification accepts,
`before_compression` is exactly the source-order concatenation of each
decoration's structural singleton derives (final path segment ending in
`"Bits"`), and `after_compression` is exactly the source-order concatenation
of each decoration's ordinary singleton derives and `Other` decorations
(`attrBefore` / `attrAfter`); hence every input decoration's expansion lands
in exactly one of the two output sequences. -/
theorem c1_record_partition (attrs : List Attribute) (r : SplitAttributes)
    (h : split_item_attributes (.structItem attrs) = .ok r) :
    r.before_compression = collectBefore attrs ∧
    r.after_compression = collectAfter attrs := by
  have h' : splitAttrs true attrs = .ok r := h
  simp only [splitAttrs] at h'
  cases hr : runAttrs true initState attrs with
  | error e => simp [hr] at h'
  | ok st =>
    simp only [hr] at h'
    obtain ⟨hb, ha, _, _⟩ := runAttrs_ok true attrs initState st hr
    have hfin := finishSplit_ok h'
    subst hfin
    exact ⟨by simp [finalize, hb, initState], by simp [finalize, ha, initState]⟩

/-- Witness for C1 at the spec's concrete scenario. -/
theorem c1_record_partition_witness :
    scenarioResult.before_compression = collectBefore [scenarioAttr] ∧
    scenarioResult.after_compression = collectAfter [scenarioAttr] :=
  c1_record_partition [scenarioAttr] scenarioResult (by decide)

/-- Claim C2: for every enum (`Enumeration`) item that classification
accepts, `after_compression` is empty and `before_compression` is the
record-style before-bucket followed by the record-style after-bucket. -/
theorem c2_enum_collapse (attrs : List Attribute) (r : SplitAttributes)
    (h : split_item_attributes (.enumItem attrs) = .ok r) :
    r.after_compression = [] ∧
    r.before_compression = collectBefore attrs ++ collectAfter attrs := by
  have h' : splitAttrs false attrs = .ok r := h
  simp only [splitAttrs] at h'
  cases hr : runAttrs false initState attrs with
  | error e => simp [hr] at h'
  | ok st =>
    simp only [hr] at h'
    obtain ⟨hb, ha, _, _⟩ := runAttrs_ok false attrs initState st hr
    have hfin := finishSplit_ok h'
    subst hfin
    exact ⟨by simp [finalize], by simp [finalize, hb, ha, initState]⟩

/-- Witness for C2 at the spec's concrete scenario, classified as an enum. -/
theorem c2_enum_collapse_witness :
    enumScenarioResult.after_compression = [] ∧
    enumScenarioResult.before_compression
      = collectBefore [scenarioAttr] ++ collectAfter [scenarioAttr] :=
  c2_enum_collapse [scenarioAttr] enumScenarioResult (by decide)

/-- Claim C3: on a struct whose attributes all parse and carry no internal
marker, a `FromBytes` / `zerocopy::FromBytes` derive target with no
`FromBits` / `bilge::FromBits` target anywhere aborts with a PolicyError
(the companion message when no plain-debug target aborts first), and the
presence of a `FromBits` target makes classification succeed with respect
to this rule. -/
theorem c3_companion_rule (attrs : List Attribute)
    (hw : ∀ a ∈ attrs, attrWellFormed a = true) :
    (attrs.any attrHasFromBytes = true → attrs.any attrHasFromBits = false →
      ∃ e, split_item_attributes (.structItem attrs) = .error e ∧ e.kind = .policy ∧
        (attrs.any attrHasDebug = false → e.msg = companionMsg)) ∧
    (attrs.any attrHasFromBits = true → attrs.any attrHasDebug = false →
      ∃ r, split_item_attributes (.structItem attrs) = .ok r) := by
  constructor
  · intro hfb hnf
    cases hd : attrs.any attrHasDebug with
    | true =>
      obtain ⟨p, hrun⟩ := runAttrs_debug attrs initState hw hd
      refine ⟨debugAbort p, splitAttrs_of_error hrun, rfl, ?_⟩
      intro h'
      exact absurd h' (by simp)
    | false =>
      obtain ⟨st, hst⟩ := runAttrs_isOk true attrs initState (benign_of_noDebug hw hd)
      obtain ⟨_, _, hf, hfby⟩ := runAttrs_ok true attrs initState st hst
      have hsome : st.from_bytes.isSome = true := by rw [hfby]; simp [initState, hfb]
      obtain ⟨fb, hfbv⟩ := Option.isSome_iff_exists.mp hsome
      have hnfb : st.has_frombits = false := by rw [hf]; simp [initState, hnf]
      refine ⟨companionAbort fb.path, ?_, rfl, fun _ => rfl⟩
      show splitAttrs true attrs = _
      simp only [splitAttrs, hst]
      unfold finishSplit
      rw [hfbv]
      simp [hnfb]
  · intro hbits hnd
    obtain ⟨st, hst⟩ := runAttrs_isOk true attrs initState (benign_of_noDebug hw hnd)
    obtain ⟨_, _, hf, _⟩ := runAttrs_ok true attrs initState st hst
    have hhf : st.has_frombits = true := by rw [hf]; simp [initState, hbits]
    refine ⟨finalize true st, ?_⟩
    show splitAttrs true attrs = _
    simp only [splitAttrs, hst]
    unfold finishSplit
    cases hfbv : st.from_bytes with
    | none => rfl
    | some fb => simp [hhf]

/-- Witness for C3: `#[derive(FromBytes)]` alone on a struct aborts with the
companion PolicyError. -/
theorem c3_companion_rule_witness :
    ∃ e, split_item_attributes (.structItem [fromBytesAttr]) = .error e ∧
      e.kind = .policy ∧
      ([fromBytesAttr].any attrHasDebug = false → e.msg = companionMsg) :=
  (c3_companion_rule [fromBytesAttr] (by decide)).1 (by decide) (by decide)

/-- Claim C4: on a struct whose attributes all parse and carry no internal
marker, any plain-debug derive target (`Debug` and its qualified spellings)
aborts with the PolicyError recommending `DebugBits` (`debugAbort`), while
on an enum no abort ever carries that message. -/
theorem c4_debug_rule :
    (∀ attrs : List Attribute, (∀ a ∈ attrs, attrWellFormed a = true) →
      attrs.any attrHasDebug = true →
      ∃ p, split_item_attributes (.structItem attrs) = .error (debugAbort p)) ∧
    (∀ (attrs : List Attribute) (e : Abort),
      split_item_attributes (.enumItem attrs) = .error e → e.msg ≠ debugMsg) := by
  constructor
  · intro attrs hw hd
    obtain ⟨p, hrun⟩ := runAttrs_debug attrs initState hw hd
    exact ⟨p, splitAttrs_of_error hrun⟩
  · intro attrs e h
    have h' : splitAttrs false attrs = .error e := h
    simp only [splitAttrs] at h'
    cases hr : runAttrs false initState attrs with
    | error e0 =>
      simp only [hr] at h'
      injection h' with h'
      subst h'
      rcases runAttrs_error_class false attrs initState e0 hr with
        ⟨_, _, hmsg⟩ | ⟨_, hmsg⟩ | ⟨hb, _, _⟩
      · rw [hmsg]; decide
      · rw [hmsg]; decide
      · simp at hb
    | ok st =>
      simp only [hr] at h'
      rw [finishSplit_false_ok st] at h'
      exact Except.noConfusion h'

/-- Witness for C4: `#[derive(Debug)]` on a struct aborts with the
`DebugBits` recommendation. -/
theorem c4_debug_rule_witness :
    ∃ p, split_item_attributes (.structItem [debugAttr]) = .error (debugAbort p) :=
  c4_debug_rule.1 [debugAttr] (by decide) (by decide)

/-- Claim C5 is false as stated: `#[derive(bitsize_internal)]` renders to
text containing `bitsize_internal`, yet classification succeeds, because
`parse_attribute` tries the derive-list arm before the marker heuristic. -/
theorem c5_counterexample :
    contains_anywhere deriveMarkerAttr.meta "bitsize_internal" = true ∧
    split_item_attributes (.structItem [deriveMarkerAttr]) =
      .ok ⟨[], [deriveMarkerAttr]⟩ :=
  ⟨by decide, by decide⟩

/-- Claim C5 (amended): every user decoration that is not recognized as a
derive list and whose rendered text contains `bitsize_internal` makes
classification abort, at any position in the decoration list; the abort is
a PolicyError provided no earlier decoration is a malformed derive list. -/
theorem c5_amended (b : Bool) (xs ys : List Attribute) (m : Attribute)
    (h1 : isDeriveShape m.meta = false)
    (h2 : contains_anywhere m.meta "bitsize_internal" = true) :
    ∃ e, split_item_attributes (itemOf b (xs ++ m :: ys)) = .error e ∧
      ((∀ x ∈ xs, isMalformedDerive x = false) → e.kind = .policy) := by
  obtain ⟨e, he, hpol⟩ := runAttrs_marker_policy b xs initState ys m h1 h2
  exact ⟨e, by rw [split_itemOf]; exact splitAttrs_of_error he, hpol⟩

/-- Witness for the amended C5 at a bare `#[bitsize_internal]` attribute. -/
theorem c5_amended_witness :
    ∃ e, split_item_attributes (itemOf true ([] ++ markerAttr :: [])) = .error e ∧
      ((∀ x ∈ ([] : List Attribute), isMalformedDerive x = false) → e.kind = .policy) :=
  c5_amended true [] [] markerAttr (by decide) (by decide)

/-- Claim C6 is false as stated: with `#[derive(Debug)]` before a
`#[bitsize_internal]` marker on a struct, the forbidden-debug rule fires
(not the supposedly higher-priority marker rejection), so which rule fires
does depend on decoration order. -/
theorem c6_counterexample :
    split_item_attributes (.structItem [debugAttr, markerAttr]) =
      .error (debugAbort ⟨false, ["Debug"]⟩) ∧
    contains_anywhere markerAttr.meta "bitsize_internal" = true ∧
    debugAbort ⟨false, ["Debug"]⟩ ≠ markerAbort markerAttr :=
  ⟨by decide, by decide, by decide⟩

/-- Claim C6 (amended): recognition and validation are interleaved per
decoration in source order: marker rejection and the forbidden-debug rule
each abort at the first offending decoration when everything before it is
benign (whichever offender comes first wins, regardless of what follows),
and the required-companion rule is evaluated only after the whole loop
completes, so a companion abort implies the loop ran to completion. -/
theorem c6_amended :
    (∀ (xs ys : List Attribute) (m : Attribute),
      (∀ x ∈ xs, attrBenign true x = true) →
      isDeriveShape m.meta = false →
      contains_anywhere m.meta "bitsize_internal" = true →
      split_item_attributes (.structItem (xs ++ m :: ys)) = .error (markerAbort m)) ∧
    (∀ (xs ys : List Attribute) (a : Attribute),
      (∀ x ∈ xs, attrBenign true x = true) → attrHasDebug a = true →
      ∃ p, split_item_attributes (.structItem (xs ++ a :: ys)) = .error (debugAbort p)) ∧
    (∀ (attrs : List Attribute) (e : Abort),
      split_item_attributes (.structItem attrs) = .error e → e.msg = companionMsg →
      ∃ st, runAttrs true initState attrs = .ok st) := by
  refine ⟨?_, ?_, ?_⟩
  · intro xs ys m hben h1 h2
    exact splitAttrs_of_error (runAttrs_first_marker true xs initState ys m hben h1 h2)
  · intro xs ys a hben hd
    obtain ⟨p, hrun⟩ := runAttrs_first_debug xs initState ys a hben hd
    exact ⟨p, splitAttrs_of_error hrun⟩
  · intro attrs e h hmsg
    have h' : splitAttrs true attrs = .error e := h
    simp only [splitAttrs] at h'
    cases hr : runAttrs true initState attrs with
    | error e0 =>
      simp only [hr] at h'
      injection h' with h'
      subst h'
      rcases runAttrs_error_class true attrs initState e0 hr with
        ⟨_, _, hm⟩ | ⟨_, hm⟩ | ⟨_, _, hm⟩ <;> rw [hm] at hmsg <;> exact absurd hmsg (by decide)
    | ok st => exact ⟨st, rfl⟩

/-- Witness for the amended C6: a marker first, a debug derive second — the
marker abort fires. -/
theorem c6_amended_witness :
    split_item_attributes (.structItem ([] ++ markerAttr :: [debugAttr])) =
      .error (markerAbort markerAttr) :=
  c6_amended.1 [] [debugAttr] markerAttr (by decide) (by decide) (by decide)

/-- Claim C7: a derive list of N paths is recognized as N targets in list
order; expanding them pushes exactly one singleton `#[derive(path)]`
attribute per target — the structural ones, in order, onto the before
bucket, the others, in order, onto the after bucket — and the bucket sizes
sum to N (no target dropped, duplicated, or split further). -/
theorem c7_expansion (ps : List Path) (b : Bool) (st st' : LoopState) :
    parse_attribute ⟨.list derivePathIdent (.paths ps)⟩ =
      .ok (.deriveList (ps.map Derive.mk)) ∧
    (∀ d ∈ ps.map Derive.mk,
      d.into_attribute = ⟨.list derivePathIdent (.paths [d.path])⟩) ∧
    (runDerives b st (ps.map Derive.mk) = .ok st' →
      st'.before_compression = st.before_compression ++ bucketBefore (ps.map Derive.mk) ∧
      st'.after_compression = st.after_compression ++ bucketAfter (ps.map Derive.mk) ∧
      (bucketBefore (ps.map Derive.mk)).length + (bucketAfter (ps.map Derive.mk)).length
        = ps.length) := by
  refine ⟨rfl, fun d _ => rfl, fun h => ?_⟩
  obtain ⟨hb, ha, _, _⟩ := runDerives_ok b (ps.map Derive.mk) st st' h
  refine ⟨hb, ha, ?_⟩
  rw [bucketBefore, bucketAfter, List.length_map, List.length_map,
    length_filter_partition, List.length_map]

/-- Witness for C7 at `derive(Clone, FooBits)`. -/
theorem c7_expansion_witness :
    (⟨none, false,
      [Attribute.mk (Meta.list derivePathIdent (Payload.paths [⟨false, ["FooBits"]⟩]))],
      [Attribute.mk (Meta.list derivePathIdent (Payload.paths [⟨false, ["Clone"]⟩]))]⟩ :
        LoopState).before_compression
      = initState.before_compression
        ++ bucketBefore ([⟨false, ["Clone"]⟩, ⟨false, ["FooBits"]⟩].map Derive.mk) ∧
    (⟨none, false,
      [Attribute.mk (Meta.list derivePathIdent (Payload.paths [⟨false, ["FooBits"]⟩]))],
      [Attribute.mk (Meta.list derivePathIdent (Payload.paths [⟨false, ["Clone"]⟩]))]⟩ :
        LoopState).after_compression
      = initState.after_compression
        ++ bucketAfter ([⟨false, ["Clone"]⟩, ⟨false, ["FooBits"]⟩].map Derive.mk) ∧
    (bucketBefore ([⟨false, ["Clone"]⟩, ⟨false, ["FooBits"]⟩].map Derive.mk)).length
      + (bucketAfter ([⟨false, ["Clone"]⟩, ⟨false, ["FooBits"]⟩].map Derive.mk)).length
      = ([⟨false, ["Clone"]⟩, ⟨false, ["FooBits"]⟩] : List Path).length :=
  (c7_expansion [⟨false, ["Clone"]⟩, ⟨false, ["FooBits"]⟩] true initState
    ⟨none, false,
      [Attribute.mk (Meta.list derivePathIdent (Payload.paths [⟨false, ["FooBits"]⟩]))],
      [Attribute.mk (Meta.list derivePathIdent (Payload.paths [⟨false, ["Clone"]⟩]))]⟩).2.2
    (by decide)

/-- Claim C8: a StructuralError arises in exactly the two structural cases —
the item is neither a struct nor an enum (`callSiteAbort`), or a `derive`
list's payload fails to parse; conversely a malformed derive payload is
never treated as `Other`: it always makes classification abort. -/
theorem c8_structural_errors :
    split_item_attributes .otherItem = .error callSiteAbort ∧
    (∀ (b : Bool) (attrs : List Attribute) (e : Abort),
      split_item_attributes (itemOf b attrs) = .error e → e.kind = .structural →
      e.msg = parseMsg ∧ ∃ a ∈ attrs, isMalformedDerive a = true) ∧
    (∀ (b : Bool) (attrs : List Attribute),
      (∃ a ∈ attrs, isMalformedDerive a = true) →
      ∃ e, split_item_attributes (itemOf b attrs) = .error e) := by
  refine ⟨rfl, ?_, ?_⟩
  · intro b attrs e h hk
    rw [split_itemOf] at h
    simp only [splitAttrs] at h
    cases hr : runAttrs b initState attrs with
    | error e0 =>
      simp only [hr] at h
      injection h with h
      subst h
      rcases runAttrs_error_class b attrs initState e0 hr with
        ⟨hex, _, hmsg⟩ | ⟨hk2, _⟩ | ⟨_, hk2, _⟩
      · exact ⟨hmsg, hex⟩
      · rw [hk2] at hk; exact absurd hk (by decide)
      · rw [hk2] at hk; exact absurd hk (by decide)
    | ok st =>
      simp only [hr] at h
      obtain ⟨hk2, _, _, _⟩ := finishSplit_error h
      rw [hk2] at hk
      exact absurd hk (by decide)
  · intro b attrs hex
    obtain ⟨a, hmem, hm⟩ := hex
    obtain ⟨e, he⟩ := runAttrs_not_ok b attrs initState
      ⟨a, hmem, fun st0 => processAttr_malformed hm b st0⟩
    exact ⟨e, by rw [split_itemOf]; exact splitAttrs_of_error he⟩

/-- Witness for C8: a malformed derive payload always aborts. -/
theorem c8_structural_errors_witness :
    ∃ e, split_item_attributes (itemOf true [malformedDeriveAttr]) = .error e :=
  c8_structural_errors.2.2 true [malformedDeriveAttr]
    ⟨malformedDeriveAttr, by decide, by decide⟩

/-- Claim C9: on an enum the required-companion check never fires — no abort
carries the companion message — and an enum whose attributes all parse and
carry no marker classifies successfully even with a `FromBytes` target and
no `FromBits` target anywhere. -/
theorem c9_enum_no_companion :
    (∀ (attrs : List Attribute) (e : Abort),
      split_item_attributes (.enumItem attrs) = .error e → e.msg ≠ companionMsg) ∧
    (∀ attrs : List Attribute, (∀ a ∈ attrs, attrWellFormed a = true) →
      attrs.any attrHasFromBytes = true → attrs.any attrHasFromBits = false →
      ∃ r, split_item_attributes (.enumItem attrs) = .ok r) := by
  constructor
  · intro attrs e h
    have h' : splitAttrs false attrs = .error e := h
    simp only [splitAttrs] at h'
    cases hr : runAttrs false initState attrs with
    | error e0 =>
      simp only [hr] at h'
      injection h' with h'
      subst h'
      rcases runAttrs_error_class false attrs initState e0 hr with
        ⟨_, _, hmsg⟩ | ⟨_, hmsg⟩ | ⟨hb, _, _⟩
      · rw [hmsg]; decide
      · rw [hmsg]; decide
      · simp at hb
    | ok st =>
      simp only [hr] at h'
      rw [finishSplit_false_ok st] at h'
      exact Except.noConfusion h'
  · intro attrs hw _ _
    have hben : ∀ a ∈ attrs, attrBenign false a = true := by
      intro a ha
      rw [attrBenign, hw a ha]
      rfl
    obtain ⟨st, hst⟩ := runAttrs_isOk false attrs initState hben
    refine ⟨finalize false st, ?_⟩
    show splitAttrs false attrs = _
    simp only [splitAttrs, hst, finishSplit_false_ok]

/-- Witness for C9: an enum with only `#[derive(FromBytes)]` classifies
successfully. -/
theorem c9_enum_no_companion_witness :
    ∃ r, split_item_attributes (.enumItem [fromBytesAttr]) = .ok r :=
  c9_enum_no_companion.2 [fromBytesAttr] (by decide) (by decide) (by decide)

/-- Claim C10: inserting `#[derive()]` anywhere in the decoration list
leaves the classification result unchanged (so it contributes to neither
output sequence and never causes an abort by itself), and on its own it
yields two empty output sequences. -/
theorem c10_empty_derive :
    (∀ (b : Bool) (xs ys : List Attribute),
      split_item_attributes (itemOf b (xs ++ emptyDeriveAttr :: ys)) =
        split_item_attributes (itemOf b (xs ++ ys))) ∧
    split_item_attributes (.structItem [emptyDeriveAttr]) = .ok ⟨[], []⟩ := by
  refine ⟨?_, by decide⟩
  intro b xs ys
  rw [split_itemOf, split_itemOf]
  simp only [splitAttrs, runAttrs_insert_empty]

end Bilge
